import Mathlib

/-!
Verification of the availability-computation core of the repository
(src/src/calendar.ts): the free-slot merge engine `calcFreeSlots`, the
availability classifier in `getAvailability`, the peak-window clamp and the
day-window construction.

Embedding conventions: millisecond timestamps are modelled as `Int` (dayjs
valueOf returns integral ms).  A TimeSlot holds two ISO strings in the source;
since toISOString and re-parsing round-trip the underlying ms value (the code
itself reads the strings back via dayjs(...).valueOf()), a slot is modelled by
the pair of its ms timestamps.  The JS array sort at calendar.ts:162 is a
stable comparison sort by interval start; it is modelled by a stable insertion
sort.
-/

namespace GbpCalendar

/-- Stable insertion of an interval into a list sorted by start: the new
element goes before the first element of strictly larger start, and after all
elements of smaller-or-equal start, matching the stable JS sort order. -/
def insertByStart (x : Int × Int) : List (Int × Int) → List (Int × Int)
  | [] => [x]
  | y :: l => if x.1 ≤ y.1 then x :: y :: l else y :: insertByStart x l

/-- Model of the sort in calendar.ts:162, a stable sort of the busy intervals
by ascending start. -/
def sortByStart : List (Int × Int) → List (Int × Int)
  | [] => []
  | x :: l => insertByStart x (sortByStart l)

/-- The cursor sweep of calcFreeSlots (calendar.ts:164-184), applied to the
already-sorted busy list: for each busy interval, if its start is strictly
past the cursor a free slot is emitted, then the cursor advances to
max(cursor, busyEnd); after the loop a trailing slot up to dayEnd is emitted
when the cursor is still strictly before dayEnd. -/
def calcFreeSlotsAux (dayEnd : Int) : Int → List (Int × Int) → List (Int × Int)
  | cursor, [] => if cursor < dayEnd then [(cursor, dayEnd)] else []
  | cursor, b :: rest =>
      (if b.1 > cursor then [(cursor, b.1)] else []) ++
        calcFreeSlotsAux dayEnd (max cursor b.2) rest

/-- calcFreeSlots (calendar.ts:155-187): sort a copy of the busy intervals by
start, then sweep a cursor from dayStart emitting the gaps. -/
def calcFreeSlots (dayStart dayEnd : Int) (busyIntervals : List (Int × Int)) :
    List (Int × Int) :=
  calcFreeSlotsAux dayEnd dayStart (sortByStart busyIntervals)

/-- Time t lies inside one of the half-open intervals of l. -/
def memIn (t : Int) (l : List (Int × Int)) : Prop :=
  ∃ p ∈ l, p.1 ≤ t ∧ t < p.2

instance (t : Int) (l : List (Int × Int)) : Decidable (memIn t l) :=
  inferInstanceAs (Decidable (∃ p ∈ l, p.1 ≤ t ∧ t < p.2))

/-- Milliseconds per hour, used when applying the hour-valued peak bounds to
the start of day (calendar.ts:109-110, todayStart.hour sets the hour of the
local day). -/
def msPerHour : Int := 3600000

/-- The peak-window extraction of getAvailability (calendar.ts:113-130):
keep the free slots overlapping the half-open peak window, clamp each to the
intersection, and drop clamped results of zero length. -/
def peakClamp (peakStart peakEnd : Int) (slots : List (Int × Int)) :
    List (Int × Int) :=
  ((slots.filter fun s => decide (s.1 < peakEnd ∧ peakStart < s.2)).map
      fun s => (max s.1 peakStart, min s.2 peakEnd)).filter
    fun s => decide (s.1 < s.2)

/-- The three availability cases of calendar.ts:24. -/
inductive AvailabilityCase
  | A
  | B
  | C
deriving DecidableEq

/-- Result record of getAvailability (calendar.ts:33-39); the source field
named case is called avCase here after the local variable of calendar.ts:133,
since case is a Lean keyword. -/
structure AvailabilityResult where
  avCase : AvailabilityCase
  freeSlots : List (Int × Int)
  peakFreeSlots : List (Int × Int)
  isWeekend : Bool
  todayLabel : String
deriving DecidableEq

/-- Peak-hours configuration (calendar.ts:42-45), hour pairs for weekday and
weekend. -/
structure PeakHours where
  weekday : Int × Int
  weekend : Int × Int

/-- The pure core of getAvailability (calendar.ts:55-142).  The network fetch
is outside the model: the function receives the busy intervals already
resolved to ms pairs, and the now-derived values isWeekend and todayLabel as
parameters.  Zero events short-circuit to case B with the whole day window as
the single free slot; otherwise the free slots are computed, clamped to the
peak window chosen by the weekend flag, and the case is A exactly when a
clamped slot survives, else C. -/
def getAvailability (dayStart dayEnd : Int) (busy : List (Int × Int))
    (peakHours : PeakHours) (isWeekend : Bool) (todayLabel : String) :
    AvailabilityResult :=
  if busy = [] then
    ⟨AvailabilityCase.B, [(dayStart, dayEnd)], [], isWeekend, todayLabel⟩
  else
    let peak := if isWeekend then peakHours.weekend else peakHours.weekday
    let peakFreeSlots :=
      peakClamp (dayStart + peak.1 * msPerHour) (dayStart + peak.2 * msPerHour)
        (calcFreeSlots dayStart dayEnd busy)
    ⟨if peakFreeSlots.length > 0 then AvailabilityCase.A else AvailabilityCase.C,
      calcFreeSlots dayStart dayEnd busy, peakFreeSlots, isWeekend, todayLabel⟩

/-- Model of dayjs startOf day for a fixed-offset timezone (calendar.ts:64):
the most recent local midnight at or before instant t, where offsetMs is the
UTC offset of the zone in ms (Asia/Tokyo: 32400000). -/
def startOfDay (offsetMs t : Int) : Int :=
  t - (t + offsetMs) % 86400000

/-- Model of dayjs endOf day for a fixed-offset timezone (calendar.ts:65):
the last millisecond of the local day containing t, which is 86399999 ms
after the local midnight (23:59:59.999 local time). -/
def endOfDay (offsetMs t : Int) : Int :=
  startOfDay offsetMs t + 86399999

/-- Lookup of an array in the JS heap model: the heap is the list of arrays
in allocation order and a reference is an allocation index. -/
def heapGet (h : List (List (Int × Int))) (r : Nat) : List (Int × Int) :=
  h.getD r []

/-- Model of the spread copy at calendar.ts:162: allocate a fresh array with
the same elements as the array at r, returning the new reference and heap. -/
def spreadAlloc (h : List (List (Int × Int))) (r : Nat) :
    Nat × List (List (Int × Int)) :=
  (h.length, h ++ [heapGet h r])

/-- Model of the in-place JS Array sort at calendar.ts:162: the receiver
array at r is overwritten with its sorted contents. -/
def sortAt (h : List (List (Int × Int))) (r : Nat) :
    List (List (Int × Int)) :=
  h.set r (sortByStart (heapGet h r))

/-- calcFreeSlots with the caller-visible array state made explicit
(calendar.ts:155-187): the busyIntervals argument lives in the heap at r; the
body allocates a spread copy, sorts the copy in place, and sweeps it.  The
returned heap is the state the caller observes after the call. -/
def calcFreeSlotsHeap (dayStart dayEnd : Int)
    (h : List (List (Int × Int))) (r : Nat) :
    List (Int × Int) × List (List (Int × Int)) :=
  let a := spreadAlloc h r
  let h2 := sortAt a.2 a.1
  (calcFreeSlotsAux dayEnd dayStart (heapGet h2 a.1), h2)

/-! Helper lemmas about the stable sort. -/

theorem insertByStart_perm (x : Int × Int) (l : List (Int × Int)) :
    (insertByStart x l).Perm (x :: l) := by
  induction l with
  | nil => exact List.Perm.refl _
  | cons y l ih =>
      simp only [insertByStart]
      by_cases h : x.1 ≤ y.1
      · rw [if_pos h]
      · rw [if_neg h]
        exact (ih.cons y).trans (List.Perm.swap x y l)

theorem sortByStart_perm (l : List (Int × Int)) : (sortByStart l).Perm l := by
  induction l with
  | nil => exact List.Perm.refl _
  | cons x l ih => exact (insertByStart_perm x (sortByStart l)).trans (ih.cons x)

theorem mem_sortByStart {x : Int × Int} {l : List (Int × Int)} :
    x ∈ sortByStart l ↔ x ∈ l :=
  (sortByStart_perm l).mem_iff

theorem insertByStart_pairwise (x : Int × Int) (l : List (Int × Int))
    (h : l.Pairwise fun p q => p.1 ≤ q.1) :
    (insertByStart x l).Pairwise fun p q => p.1 ≤ q.1 := by
  induction l with
  | nil => simp [insertByStart]
  | cons y l ih =>
      rw [List.pairwise_cons] at h
      obtain ⟨hy, hl⟩ := h
      simp only [insertByStart]
      by_cases hle : x.1 ≤ y.1
      · rw [if_pos hle, List.pairwise_cons]
        refine ⟨?_, List.pairwise_cons.mpr ⟨hy, hl⟩⟩
        intro q hq
        rcases List.mem_cons.mp hq with rfl | hq
        · exact hle
        · exact le_trans hle (hy q hq)
      · rw [if_neg hle, List.pairwise_cons]
        refine ⟨?_, ih hl⟩
        intro q hq
        rcases List.mem_cons.mp ((insertByStart_perm x l).mem_iff.mp hq) with rfl | h
        · omega
        · exact hy q h

theorem sortByStart_pairwise (l : List (Int × Int)) :
    (sortByStart l).Pairwise fun p q => p.1 ≤ q.1 := by
  induction l with
  | nil => simp [sortByStart]
  | cons x l ih => exact insertByStart_pairwise x (sortByStart l) ih

/-! Helper lemmas about interval membership. -/

theorem memIn_nil (t : Int) : ¬ memIn t [] := by
  simp [memIn]

theorem memIn_cons {t : Int} {p : Int × Int} {l : List (Int × Int)} :
    memIn t (p :: l) ↔ (p.1 ≤ t ∧ t < p.2) ∨ memIn t l := by
  simp [memIn, List.mem_cons, or_and_right, exists_or]

theorem memIn_append {t : Int} {l1 l2 : List (Int × Int)} :
    memIn t (l1 ++ l2) ↔ memIn t l1 ∨ memIn t l2 := by
  simp [memIn, List.mem_append, or_and_right, exists_or]

theorem memIn_singleton {t : Int} {p : Int × Int} :
    memIn t [p] ↔ p.1 ≤ t ∧ t < p.2 := by
  simp [memIn]

theorem memIn_of_perm {t : Int} {l1 l2 : List (Int × Int)}
    (h : l1.Perm l2) : memIn t l1 ↔ memIn t l2 := by
  constructor
  · rintro ⟨p, hp, h1, h2⟩
    exact ⟨p, h.mem_iff.mp hp, h1, h2⟩
  · rintro ⟨p, hp, h1, h2⟩
    exact ⟨p, h.mem_iff.mpr hp, h1, h2⟩

theorem exists_start_cons {t : Int} {b : Int × Int} {l : List (Int × Int)} :
    (∃ p ∈ b :: l, t < p.1) ↔ t < b.1 ∨ ∃ p ∈ l, t < p.1 := by
  simp [List.mem_cons, or_and_right, exists_or]

/-- Pointwise characterization of the sweep output on a start-sorted busy
list: t lies in an emitted slot exactly when t is at or past the cursor, t is
in no busy interval, and t is either before dayEnd or before the start of
some remaining busy interval. -/
theorem memIn_calcFreeSlotsAux (dayEnd t : Int) (l : List (Int × Int)) :
    ∀ cursor : Int, l.Pairwise (fun p q => p.1 ≤ q.1) →
      (memIn t (calcFreeSlotsAux dayEnd cursor l) ↔
        cursor ≤ t ∧ ¬ memIn t l ∧ (t < dayEnd ∨ ∃ p ∈ l, t < p.1)) := by
  induction l with
  | nil =>
      intro cursor _
      by_cases h : cursor < dayEnd
      · simp [calcFreeSlotsAux, if_pos h, memIn]
      · simp only [calcFreeSlotsAux, if_neg h]
        simp [memIn]
        omega
  | cons b rest ih =>
      intro cursor hp
      rw [List.pairwise_cons] at hp
      obtain ⟨hble, hrest⟩ := hp
      have IH := ih (max cursor b.2) hrest
      by_cases hgt : b.1 > cursor
      · simp only [calcFreeSlotsAux, if_pos hgt, memIn_append, memIn_cons,
          memIn_nil, or_false, IH, exists_start_cons]
        constructor
        · rintro (⟨h1, h2⟩ | ⟨h1, h2, h3⟩)
          · refine ⟨h1, ?_, Or.inr (Or.inl h2)⟩
            rintro (⟨hb1, _⟩ | ⟨q, hq, hq1, _⟩)
            · omega
            · have := hble q hq
              omega
          · have hc : cursor ≤ t := le_trans (le_max_left _ _) h1
            have hb2 : b.2 ≤ t := le_trans (le_max_right _ _) h1
            refine ⟨hc, ?_, ?_⟩
            · rintro (⟨_, hlt⟩ | hmr)
              · omega
              · exact h2 hmr
            · rcases h3 with h3 | h3
              · exact Or.inl h3
              · exact Or.inr (Or.inr h3)
        · rintro ⟨h1, h2, h3⟩
          by_cases htb : t < b.1
          · exact Or.inl ⟨h1, htb⟩
          · have hb2 : b.2 ≤ t := by
              by_contra hc
              exact h2 (Or.inl ⟨by omega, by omega⟩)
            refine Or.inr ⟨max_le h1 hb2, fun hmr => h2 (Or.inr hmr), ?_⟩
            rcases h3 with h3 | h3 | h3
            · exact Or.inl h3
            · omega
            · exact Or.inr h3
      · simp only [calcFreeSlotsAux, if_neg hgt, List.nil_append, IH,
          memIn_cons, exists_start_cons]
        constructor
        · rintro ⟨h1, h2, h3⟩
          have hc : cursor ≤ t := le_trans (le_max_left _ _) h1
          have hb2 : b.2 ≤ t := le_trans (le_max_right _ _) h1
          refine ⟨hc, ?_, ?_⟩
          · rintro (⟨_, hlt⟩ | hmr)
            · omega
            · exact h2 hmr
          · rcases h3 with h3 | h3
            · exact Or.inl h3
            · exact Or.inr (Or.inr h3)
        · rintro ⟨h1, h2, h3⟩
          have hb2 : b.2 ≤ t := by
            by_contra hc
            exact h2 (Or.inl ⟨by omega, by omega⟩)
          refine ⟨max_le h1 hb2, fun hmr => h2 (Or.inr hmr), ?_⟩
          rcases h3 with h3 | h3 | h3
          · exact Or.inl h3
          · omega
          · exact Or.inr h3

/-- Structural invariant of the sweep on a well-formed busy list: every
emitted slot starts at or after the cursor, has strictly positive length, and
consecutive slots are separated by a strictly positive gap (pairwise the end
of an earlier slot is strictly below the start of a later one). -/
theorem calcFreeSlotsAux_struct (dayEnd : Int) (l : List (Int × Int)) :
    ∀ cursor : Int, (∀ p ∈ l, p.1 < p.2) →
      (∀ q ∈ calcFreeSlotsAux dayEnd cursor l, cursor ≤ q.1 ∧ q.1 < q.2) ∧
      (calcFreeSlotsAux dayEnd cursor l).Pairwise fun p q => p.2 < q.1 := by
  induction l with
  | nil =>
      intro cursor _
      by_cases h : cursor < dayEnd
      · simp only [calcFreeSlotsAux, if_pos h]
        simp [h]
      · simp only [calcFreeSlotsAux, if_neg h]
        simp
  | cons b rest ih =>
      intro cursor hwf
      have hwfr : ∀ p ∈ rest, p.1 < p.2 := fun p hp => hwf p (List.mem_cons_of_mem _ hp)
      have hb := hwf b (List.mem_cons_self _ _)
      obtain ⟨IH1, IH2⟩ := ih (max cursor b.2) hwfr
      by_cases hgt : b.1 > cursor
      · simp only [calcFreeSlotsAux, if_pos hgt, List.singleton_append]
        constructor
        · intro q hq
          rcases List.mem_cons.mp hq with rfl | hq
          · exact ⟨le_refl _, hgt⟩
          · have h1 := IH1 q hq
            have h2 := le_max_left cursor b.2
            exact ⟨by omega, h1.2⟩
        · rw [List.pairwise_cons]
          refine ⟨?_, IH2⟩
          intro q hq
          have h1 := (IH1 q hq).1
          have h2 := le_max_right cursor b.2
          omega
      · simp only [calcFreeSlotsAux, if_neg hgt, List.nil_append]
        refine ⟨?_, IH2⟩
        intro q hq
        have h1 := IH1 q hq
        have h2 := le_max_left cursor b.2
        exact ⟨by omega, h1.2⟩

/-- Upper bound: when every busy interval starts at or before dayEnd, every
emitted slot ends at or before dayEnd. -/
theorem calcFreeSlotsAux_ub (dayEnd : Int) (l : List (Int × Int)) :
    ∀ cursor : Int, (∀ p ∈ l, p.1 ≤ dayEnd) →
      ∀ q ∈ calcFreeSlotsAux dayEnd cursor l, q.2 ≤ dayEnd := by
  induction l with
  | nil =>
      intro cursor _
      by_cases h : cursor < dayEnd
      · simp only [calcFreeSlotsAux, if_pos h]
        simp
      · simp only [calcFreeSlotsAux, if_neg h]
        simp
  | cons b rest ih =>
      intro cursor hle
      have hler : ∀ p ∈ rest, p.1 ≤ dayEnd := fun p hp => hle p (List.mem_cons_of_mem _ hp)
      have hb := hle b (List.mem_cons_self _ _)
      by_cases hgt : b.1 > cursor
      · simp only [calcFreeSlotsAux, if_pos hgt, List.singleton_append]
        intro q hq
        rcases List.mem_cons.mp hq with rfl | hq
        · exact hb
        · exact ih (max cursor b.2) hler q hq
      · simp only [calcFreeSlotsAux, if_neg hgt, List.nil_append]
        exact ih (max cursor b.2) hler

/-- Canonical interval lists (positive lengths, strictly separated in order)
are determined by their point sets: two such lists containing exactly the
same timestamps are equal. -/
theorem canonical_ext (l1 : List (Int × Int)) :
    ∀ l2 : List (Int × Int),
      l1.Pairwise (fun p q => p.2 < q.1) → (∀ p ∈ l1, p.1 < p.2) →
      l2.Pairwise (fun p q => p.2 < q.1) → (∀ p ∈ l2, p.1 < p.2) →
      (∀ s : Int, memIn s l1 ↔ memIn s l2) → l1 = l2 := by
  induction l1 with
  | nil =>
      intro l2 _ _ _ hw2 hext
      cases l2 with
      | nil => rfl
      | cons q t2 =>
          exfalso
          have hq : memIn q.1 (q :: t2) :=
            ⟨q, List.mem_cons_self _ _, le_refl _, hw2 q (List.mem_cons_self _ _)⟩
          exact memIn_nil q.1 ((hext q.1).mpr hq)
  | cons p t1 ih =>
      intro l2 hp1 hw1 hp2 hw2 hext
      cases l2 with
      | nil =>
          exfalso
          have hp : memIn p.1 (p :: t1) :=
            ⟨p, List.mem_cons_self _ _, le_refl _, hw1 p (List.mem_cons_self _ _)⟩
          exact memIn_nil p.1 ((hext p.1).mp hp)
      | cons q t2 =>
          rw [List.pairwise_cons] at hp1 hp2
          obtain ⟨ha1, hb1⟩ := hp1
          obtain ⟨ha2, hb2⟩ := hp2
          have hwp := hw1 p (List.mem_cons_self _ _)
          have hwq := hw2 q (List.mem_cons_self _ _)
          have h11 : q.1 ≤ p.1 := by
            have hm : memIn p.1 (q :: t2) :=
              (hext p.1).mp ⟨p, List.mem_cons_self _ _, le_refl _, hwp⟩
            obtain ⟨r, hr, hr1, hr2⟩ := hm
            rcases List.mem_cons.mp hr with rfl | hr
            · exact hr1
            · have := ha2 r hr
              omega
          have h12 : p.1 ≤ q.1 := by
            have hm : memIn q.1 (p :: t1) :=
              (hext q.1).mpr ⟨q, List.mem_cons_self _ _, le_refl _, hwq⟩
            obtain ⟨r, hr, hr1, hr2⟩ := hm
            rcases List.mem_cons.mp hr with rfl | hr
            · exact hr1
            · have := ha1 r hr
              omega
          have h21 : ¬ p.2 < q.2 := by
            intro hlt
            have hm : memIn p.2 (p :: t1) :=
              (hext p.2).mpr ⟨q, List.mem_cons_self _ _, by omega, hlt⟩
            obtain ⟨r, hr, hr1, hr2⟩ := hm
            rcases List.mem_cons.mp hr with rfl | hr
            · omega
            · have := ha1 r hr
              omega
          have h22 : ¬ q.2 < p.2 := by
            intro hlt
            have hm : memIn q.2 (q :: t2) :=
              (hext q.2).mp ⟨p, List.mem_cons_self _ _, by omega, hlt⟩
            obtain ⟨r, hr, hr1, hr2⟩ := hm
            rcases List.mem_cons.mp hr with rfl | hr
            · omega
            · have := ha2 r hr
              omega
          have hpq : p = q := Prod.ext (by omega) (by omega)
          have htail : ∀ s : Int, memIn s t1 ↔ memIn s t2 := by
            intro s
            constructor
            · rintro ⟨r, hr, hr1, hr2⟩
              have hgap := ha1 r hr
              have hs2 : memIn s (q :: t2) :=
                (hext s).mp ⟨r, List.mem_cons_of_mem _ hr, hr1, hr2⟩
              obtain ⟨r2, hr2m, hx1, hx2⟩ := hs2
              rcases List.mem_cons.mp hr2m with rfl | hr2m
              · exfalso
                omega
              · exact ⟨r2, hr2m, hx1, hx2⟩
            · rintro ⟨r, hr, hr1, hr2⟩
              have hgap := ha2 r hr
              have hs1 : memIn s (p :: t1) :=
                (hext s).mpr ⟨r, List.mem_cons_of_mem _ hr, hr1, hr2⟩
              obtain ⟨r2, hr2m, hx1, hx2⟩ := hs1
              rcases List.mem_cons.mp hr2m with rfl | hr2m
              · exfalso
                omega
              · exact ⟨r2, hr2m, hx1, hx2⟩
          have htl : t1 = t2 :=
            ih t2 hb1 (fun r hr => hw1 r (List.mem_cons_of_mem _ hr)) hb2
              (fun r hr => hw2 r (List.mem_cons_of_mem _ hr)) htail
          rw [hpq, htl]

/-- Congruence of the free-slot computation: two well-formed busy lists that
cover the same timestamps and have starts beyond the same timestamps produce
identical free-slot output. -/
theorem calcFreeSlots_congr (dayStart dayEnd : Int) (b1 b2 : List (Int × Int))
    (hw1 : ∀ p ∈ b1, p.1 < p.2) (hw2 : ∀ p ∈ b2, p.1 < p.2)
    (hmem : ∀ s : Int, memIn s b1 ↔ memIn s b2)
    (hst : ∀ s : Int, (∃ p ∈ b1, s < p.1) ↔ (∃ p ∈ b2, s < p.1)) :
    calcFreeSlots dayStart dayEnd b1 = calcFreeSlots dayStart dayEnd b2 := by
  have hw1s : ∀ p ∈ sortByStart b1, p.1 < p.2 :=
    fun p hp => hw1 p (mem_sortByStart.mp hp)
  have hw2s : ∀ p ∈ sortByStart b2, p.1 < p.2 :=
    fun p hp => hw2 p (mem_sortByStart.mp hp)
  obtain ⟨hs1, hc1⟩ := calcFreeSlotsAux_struct dayEnd (sortByStart b1) dayStart hw1s
  obtain ⟨hs2, hc2⟩ := calcFreeSlotsAux_struct dayEnd (sortByStart b2) dayStart hw2s
  apply canonical_ext _ _ hc1 (fun q hq => (hs1 q hq).2) hc2 (fun q hq => (hs2 q hq).2)
  intro s
  rw [memIn_calcFreeSlotsAux dayEnd s (sortByStart b1) dayStart (sortByStart_pairwise b1),
      memIn_calcFreeSlotsAux dayEnd s (sortByStart b2) dayStart (sortByStart_pairwise b2)]
  have e1 : memIn s (sortByStart b1) ↔ memIn s (sortByStart b2) :=
    ((memIn_of_perm (sortByStart_perm b1)).trans (hmem s)).trans
      (memIn_of_perm (sortByStart_perm b2)).symm
  have e2 : (∃ p ∈ sortByStart b1, s < p.1) ↔ (∃ p ∈ sortByStart b2, s < p.1) := by
    constructor
    · rintro ⟨p, hp, h⟩
      obtain ⟨p2, hp2, h2⟩ := (hst s).mp ⟨p, mem_sortByStart.mp hp, h⟩
      exact ⟨p2, mem_sortByStart.mpr hp2, h2⟩
    · rintro ⟨p, hp, h⟩
      obtain ⟨p2, hp2, h2⟩ := (hst s).mpr ⟨p, mem_sortByStart.mp hp, h⟩
      exact ⟨p2, mem_sortByStart.mpr hp2, h2⟩
  rw [e1, e2]

theorem pairwise_start_lt {l : List (Int × Int)} (hpos : ∀ p ∈ l, p.1 < p.2)
    (h : l.Pairwise fun p q => p.2 < q.1) :
    l.Pairwise fun p q => p.1 < q.1 := by
  induction l with
  | nil => simp
  | cons p t ih =>
      rw [List.pairwise_cons] at h ⊢
      refine ⟨fun q hq => ?_,
        ih (fun r hr => hpos r (List.mem_cons_of_mem _ hr)) h.2⟩
      have h1 := h.1 q hq
      have h2 := hpos p (List.mem_cons_self _ _)
      omega

/-- C1 (amended): for a day window with dayStart < dayEnd and well-formed
busy intervals each starting no later than dayEnd, every returned free slot
lies inside [dayStart, dayEnd) with positive length, and a timestamp of the
window is in a free slot exactly when it is in no busy interval, so free
slots and the in-window parts of the busy intervals partition the window
with no gap and no overlap; moreover no free slot ever overlaps a busy
interval. -/
theorem calcFreeSlots_coverage (dayStart dayEnd : Int) (busy : List (Int × Int))
    (hday : dayStart < dayEnd)
    (hwf : ∀ p ∈ busy, p.1 < p.2)
    (hle : ∀ p ∈ busy, p.1 ≤ dayEnd) :
    (∀ p ∈ calcFreeSlots dayStart dayEnd busy,
        dayStart ≤ p.1 ∧ p.1 < p.2 ∧ p.2 ≤ dayEnd) ∧
    (∀ t : Int, dayStart ≤ t → t < dayEnd →
        (memIn t (calcFreeSlots dayStart dayEnd busy) ↔ ¬ memIn t busy)) ∧
    (∀ t : Int, ¬ (memIn t (calcFreeSlots dayStart dayEnd busy) ∧ memIn t busy)) := by
  have hwfs : ∀ p ∈ sortByStart busy, p.1 < p.2 :=
    fun p hp => hwf p (mem_sortByStart.mp hp)
  have hles : ∀ p ∈ sortByStart busy, p.1 ≤ dayEnd :=
    fun p hp => hle p (mem_sortByStart.mp hp)
  obtain ⟨hs, _⟩ := calcFreeSlotsAux_struct dayEnd (sortByStart busy) dayStart hwfs
  have hub := calcFreeSlotsAux_ub dayEnd (sortByStart busy) dayStart hles
  have hmem : ∀ t : Int, memIn t (calcFreeSlots dayStart dayEnd busy) ↔
      dayStart ≤ t ∧ ¬ memIn t (sortByStart busy) ∧
        (t < dayEnd ∨ ∃ p ∈ sortByStart busy, t < p.1) :=
    fun t => memIn_calcFreeSlotsAux dayEnd t (sortByStart busy) dayStart
      (sortByStart_pairwise busy)
  have hperm : ∀ t : Int, memIn t (sortByStart busy) ↔ memIn t busy :=
    fun t => memIn_of_perm (sortByStart_perm busy)
  refine ⟨?_, ?_, ?_⟩
  · intro p hp
    exact ⟨(hs p hp).1, (hs p hp).2, hub p hp⟩
  · intro t h1 h2
    rw [hmem t, ← hperm t]
    constructor
    · rintro ⟨_, hnb, _⟩
      exact hnb
    · intro hnb
      exact ⟨h1, hnb, Or.inl h2⟩
  · rintro t ⟨hf, hb⟩
    obtain ⟨p, hp, hp1, hp2⟩ := hf
    have := (hmem t).mp ⟨p, hp, hp1, hp2⟩
    exact this.2.1 ((hperm t).mpr hb)

theorem calcFreeSlots_coverage_witness :
    ((0 : Int) < 10 ∧ (∀ p ∈ [((2 : Int), (4 : Int)), (3, 5)], p.1 < p.2) ∧
      (∀ p ∈ [((2 : Int), (4 : Int)), (3, 5)], p.1 ≤ 10)) ∧
    ((∀ p ∈ calcFreeSlots 0 10 [((2 : Int), (4 : Int)), (3, 5)],
        (0 : Int) ≤ p.1 ∧ p.1 < p.2 ∧ p.2 ≤ 10) ∧
    (∀ t : Int, (0 : Int) ≤ t → t < 10 →
        (memIn t (calcFreeSlots 0 10 [((2 : Int), (4 : Int)), (3, 5)]) ↔
          ¬ memIn t [((2 : Int), (4 : Int)), (3, 5)])) ∧
    (∀ t : Int, ¬ (memIn t (calcFreeSlots 0 10 [((2 : Int), (4 : Int)), (3, 5)]) ∧
        memIn t [((2 : Int), (4 : Int)), (3, 5)]))) :=
  ⟨⟨by decide, by decide, by decide⟩,
    calcFreeSlots_coverage 0 10 [((2 : Int), (4 : Int)), (3, 5)]
      (by decide) (by decide) (by decide)⟩

/-- C1 counterexample: the busy interval (20, 30) is well-formed, the day
window is [0, 10), yet calcFreeSlots returns a slot ending at 20, extending
outside the day window, so the coverage claim fails for arbitrary
well-formed busy intervals. -/
theorem calcFreeSlots_coverage_cex :
    (0 : Int) < 10 ∧ (∀ p ∈ [((20 : Int), (30 : Int))], p.1 < p.2) ∧
    calcFreeSlots 0 10 [((20 : Int), (30 : Int))] = [(0, 20)] ∧
    ¬ (∀ p ∈ calcFreeSlots 0 10 [((20 : Int), (30 : Int))], p.2 ≤ 10) := by
  refine ⟨by decide, by decide, by decide, by decide⟩

/-- C2 (amended): for dayStart < dayEnd and well-formed busy intervals the
output is sorted by start, pairwise separated by strictly positive gaps (so
non-overlapping and never touching), and every emitted slot has positive
length; and when additionally every busy interval starts no later than
dayEnd, busy intervals covering all of [dayStart, dayEnd) force an empty
result. -/
theorem calcFreeSlots_output_invariants (dayStart dayEnd : Int)
    (busy : List (Int × Int))
    (hday : dayStart < dayEnd) (hwf : ∀ p ∈ busy, p.1 < p.2) :
    (calcFreeSlots dayStart dayEnd busy).Pairwise (fun p q => p.1 < q.1) ∧
    (calcFreeSlots dayStart dayEnd busy).Pairwise (fun p q => p.2 < q.1) ∧
    (∀ p ∈ calcFreeSlots dayStart dayEnd busy, p.1 < p.2) ∧
    ((∀ p ∈ busy, p.1 ≤ dayEnd) →
      (∀ t : Int, dayStart ≤ t → t < dayEnd → memIn t busy) →
      calcFreeSlots dayStart dayEnd busy = []) := by
  have hwfs : ∀ p ∈ sortByStart busy, p.1 < p.2 :=
    fun p hp => hwf p (mem_sortByStart.mp hp)
  obtain ⟨hs, hc⟩ := calcFreeSlotsAux_struct dayEnd (sortByStart busy) dayStart hwfs
  have hpos : ∀ p ∈ calcFreeSlots dayStart dayEnd busy, p.1 < p.2 :=
    fun p hp => (hs p hp).2
  refine ⟨pairwise_start_lt hpos hc, hc, hpos, ?_⟩
  intro hle hcover
  by_contra hne
  obtain ⟨p, hp⟩ := List.exists_mem_of_ne_nil _ hne
  have hppos := (hs p hp).2
  have hm : memIn p.1 (calcFreeSlots dayStart dayEnd busy) :=
    ⟨p, hp, le_refl _, hppos⟩
  obtain ⟨hd, hnb, hor⟩ :=
    (memIn_calcFreeSlotsAux dayEnd p.1 (sortByStart busy) dayStart
      (sortByStart_pairwise busy)).mp hm
  have hlt : p.1 < dayEnd := by
    rcases hor with h | ⟨q, hq, hql⟩
    · exact h
    · have := hle q (mem_sortByStart.mp hq)
      omega
  exact hnb ((memIn_of_perm (sortByStart_perm busy)).mpr (hcover p.1 hd hlt))

theorem calcFreeSlots_output_invariants_witness :
    ((0 : Int) < 10 ∧ (∀ p ∈ [((2 : Int), (4 : Int))], p.1 < p.2)) ∧
    ((calcFreeSlots 0 10 [((2 : Int), (4 : Int))]).Pairwise
        (fun p q => p.1 < q.1) ∧
    (calcFreeSlots 0 10 [((2 : Int), (4 : Int))]).Pairwise
        (fun p q => p.2 < q.1) ∧
    (∀ p ∈ calcFreeSlots 0 10 [((2 : Int), (4 : Int))], p.1 < p.2) ∧
    ((∀ p ∈ [((2 : Int), (4 : Int))], p.1 ≤ 10) →
      (∀ t : Int, (0 : Int) ≤ t → t < 10 → memIn t [((2 : Int), (4 : Int))]) →
      calcFreeSlots 0 10 [((2 : Int), (4 : Int))] = [])) :=
  ⟨⟨by decide, by decide⟩,
    calcFreeSlots_output_invariants 0 10 [((2 : Int), (4 : Int))]
      (by decide) (by decide)⟩

/-- C2 counterexample: well-formed busy intervals (0, 10) and (20, 30) cover
all of the day window [0, 10), yet the result is the nonempty [(10, 20)]
because the second interval lies beyond the window, so the
full-cover-implies-empty clause fails as stated. -/
theorem calcFreeSlots_fullcover_cex :
    (0 : Int) < 10 ∧
    (∀ p ∈ [((0 : Int), (10 : Int)), (20, 30)], p.1 < p.2) ∧
    (∀ t : Int, 0 ≤ t → t < 10 → memIn t [((0 : Int), (10 : Int)), (20, 30)]) ∧
    calcFreeSlots 0 10 [((0 : Int), (10 : Int)), (20, 30)] ≠ [] :=
  ⟨by decide, by decide,
    fun t h1 h2 => ⟨(0, 10), List.mem_cons_self _ _, h1, h2⟩, by decide⟩

/-- C3: zero reservations short-circuit to case B, with the single free slot
equal to the whole day window and an empty peak-free set, for every day
window and peak-hours configuration. -/
theorem getAvailability_zero_reservations (dayStart dayEnd : Int)
    (peakHours : PeakHours) (isWeekend : Bool) (todayLabel : String) :
    getAvailability dayStart dayEnd [] peakHours isWeekend todayLabel =
      ⟨AvailabilityCase.B, [(dayStart, dayEnd)], [], isWeekend, todayLabel⟩ :=
  rfl

/-- C4: a single busy interval equal to the whole day window yields zero
free slots and case C with an empty peak-free set, returned as an ordinary
AvailabilityResult value (the embedded function is total: the source path
has no throw, no-availability is a normal case C result). -/
theorem getAvailability_fullday_caseC (dayStart dayEnd : Int)
    (peakHours : PeakHours) (isWeekend : Bool) (todayLabel : String) :
    getAvailability dayStart dayEnd [(dayStart, dayEnd)] peakHours isWeekend
        todayLabel =
      ⟨AvailabilityCase.C, [], [], isWeekend, todayLabel⟩ := by
  have hfree : calcFreeSlots dayStart dayEnd [(dayStart, dayEnd)] = [] := by
    show calcFreeSlotsAux dayEnd dayStart [(dayStart, dayEnd)] = []
    simp only [calcFreeSlotsAux]
    have h1 : ¬ ((dayStart, dayEnd) : Int × Int).1 > dayStart :=
      lt_irrefl dayStart
    have h2 : ¬ max dayStart ((dayStart, dayEnd) : Int × Int).2 < dayEnd :=
      not_lt.mpr (le_max_right dayStart dayEnd)
    rw [if_neg h1, if_neg h2, List.nil_append]
  simp [getAvailability, hfree, peakClamp]

/-- C5: a free slot contributes a peak-free slot exactly when it overlaps
the half-open peak window (slot.start < peakEnd and slot.end > peakStart);
a contributing slot is clamped to the intersection, zero-length clamped
results are dropped; slot 10:00-12:00 against peak 11:00-13:00 yields
11:00-12:00, while slot 09:00-10:00 against the same peak yields nothing. -/
theorem peakClamp_spec (peakStart peakEnd : Int) (slots : List (Int × Int)) :
    (∀ q : Int × Int,
      q ∈ peakClamp peakStart peakEnd slots ↔
        ∃ s ∈ slots, s.1 < peakEnd ∧ peakStart < s.2 ∧
          q = (max s.1 peakStart, min s.2 peakEnd) ∧
          max s.1 peakStart < min s.2 peakEnd) ∧
    peakClamp (11 * msPerHour) (13 * msPerHour)
        [(10 * msPerHour, 12 * msPerHour)] =
      [(11 * msPerHour, 12 * msPerHour)] ∧
    peakClamp (11 * msPerHour) (13 * msPerHour)
        [(9 * msPerHour, 10 * msPerHour)] = [] := by
  refine ⟨?_, by decide, by decide⟩
  intro q
  simp only [peakClamp, List.mem_filter, List.mem_map, decide_eq_true_eq]
  constructor
  · rintro ⟨⟨s, ⟨hs, ho1, ho2⟩, rfl⟩, hpos⟩
    exact ⟨s, hs, ho1, ho2, rfl, hpos⟩
  · rintro ⟨s, hs, h1, h2, rfl, h3⟩
    exact ⟨⟨s, ⟨hs, h1, h2⟩, rfl⟩, h3⟩

/-- C6: on the general path (nonempty busy input) the case is A exactly when
the clamped peak-free sequence is nonempty, and C exactly when it is empty
(so never B there); and in every result a nonempty peak-free sequence
implies case A. -/
theorem getAvailability_caseA_iff (dayStart dayEnd : Int)
    (busy : List (Int × Int)) (peakHours : PeakHours) (isWeekend : Bool)
    (todayLabel : String) :
    ((getAvailability dayStart dayEnd busy peakHours isWeekend
          todayLabel).peakFreeSlots ≠ [] →
        (getAvailability dayStart dayEnd busy peakHours isWeekend
          todayLabel).avCase = AvailabilityCase.A) ∧
    (busy ≠ [] →
        (((getAvailability dayStart dayEnd busy peakHours isWeekend
            todayLabel).avCase = AvailabilityCase.A ↔
          (getAvailability dayStart dayEnd busy peakHours isWeekend
            todayLabel).peakFreeSlots ≠ []) ∧
        ((getAvailability dayStart dayEnd busy peakHours isWeekend
            todayLabel).avCase = AvailabilityCase.C ↔
          (getAvailability dayStart dayEnd busy peakHours isWeekend
            todayLabel).peakFreeSlots = []))) := by
  by_cases hb : busy = []
  · subst hb
    simp [getAvailability]
  · simp only [getAvailability, if_neg hb]
    cases hpc : peakClamp
        (dayStart +
          (if isWeekend then peakHours.weekend else peakHours.weekday).1 *
            msPerHour)
        (dayStart +
          (if isWeekend then peakHours.weekend else peakHours.weekday).2 *
            msPerHour)
        (calcFreeSlots dayStart dayEnd busy) with
    | nil => simp [hpc, hb]
    | cons x xs => simp [hpc, hb]

theorem getAvailability_caseA_iff_witness :
    (([((0 : Int), (3600000 : Int))] ≠ ([] : List (Int × Int))) ∧
      ([((0 : Int), (86399999 : Int))] ≠ ([] : List (Int × Int)))) ∧
    ((getAvailability 0 86399999 [((0 : Int), (3600000 : Int))]
        ⟨(17, 21), (13, 17)⟩ false "").avCase = AvailabilityCase.A ∧
      (getAvailability 0 86399999 [((0 : Int), (86399999 : Int))]
        ⟨(17, 21), (13, 17)⟩ false "").avCase = AvailabilityCase.C) :=
  ⟨⟨by decide, by decide⟩,
    ⟨(((getAvailability_caseA_iff 0 86399999 [((0 : Int), (3600000 : Int))]
        ⟨(17, 21), (13, 17)⟩ false "").2 (by decide)).1).mpr (by decide),
      (((getAvailability_caseA_iff 0 86399999 [((0 : Int), (86399999 : Int))]
        ⟨(17, 21), (13, 17)⟩ false "").2 (by decide)).2).mpr (by decide)⟩⟩

/-- C7: permuting the busy-interval input (busy intervals carry the data
model invariant start < end) leaves the free-slot output identical, in both
order and values. -/
theorem calcFreeSlots_perm_invariant (dayStart dayEnd : Int)
    (b1 b2 : List (Int × Int)) (hperm : b1.Perm b2)
    (hwf : ∀ p ∈ b1, p.1 < p.2) :
    calcFreeSlots dayStart dayEnd b1 = calcFreeSlots dayStart dayEnd b2 := by
  apply calcFreeSlots_congr dayStart dayEnd b1 b2 hwf
    (fun p hp => hwf p (hperm.mem_iff.mpr hp))
  · exact fun s => memIn_of_perm hperm
  · intro s
    constructor
    · rintro ⟨p, hp, h⟩
      exact ⟨p, hperm.mem_iff.mp hp, h⟩
    · rintro ⟨p, hp, h⟩
      exact ⟨p, hperm.mem_iff.mpr hp, h⟩

theorem calcFreeSlots_perm_invariant_witness :
    (([((2 : Int), (4 : Int)), (0, 1)]).Perm [((0 : Int), (1 : Int)), (2, 4)] ∧
      (∀ p ∈ [((2 : Int), (4 : Int)), (0, 1)], p.1 < p.2)) ∧
    calcFreeSlots 0 10 [((2 : Int), (4 : Int)), (0, 1)] =
      calcFreeSlots 0 10 [((0 : Int), (1 : Int)), (2, 4)] :=
  ⟨⟨List.Perm.swap (0, 1) (2, 4) [], by decide⟩,
    calcFreeSlots_perm_invariant 0 10 _ _ (List.Perm.swap (0, 1) (2, 4) [])
      (by decide)⟩

/-- C8: inserting a duplicate of a busy interval already present anywhere in
the input (busy intervals carry the data model invariant start < end) leaves
the free-slot output unchanged. -/
theorem calcFreeSlots_dup_invariant (dayStart dayEnd : Int)
    (l1 l2 : List (Int × Int)) (x : Int × Int)
    (hx : x ∈ l1 ++ l2) (hwf : ∀ p ∈ l1 ++ l2, p.1 < p.2) :
    calcFreeSlots dayStart dayEnd (l1 ++ x :: l2) =
      calcFreeSlots dayStart dayEnd (l1 ++ l2) := by
  have hmemiff : ∀ p : Int × Int, p ∈ l1 ++ x :: l2 ↔ p ∈ l1 ++ l2 := by
    intro p
    simp only [List.mem_append, List.mem_cons]
    constructor
    · rintro (h | rfl | h)
      · exact Or.inl h
      · simpa [List.mem_append] using hx
      · exact Or.inr h
    · rintro (h | h)
      · exact Or.inl h
      · exact Or.inr (Or.inr h)
  apply calcFreeSlots_congr dayStart dayEnd _ _
    (fun p hp => hwf p ((hmemiff p).mp hp)) hwf
  · intro s
    constructor
    · rintro ⟨p, hp, h1, h2⟩
      exact ⟨p, (hmemiff p).mp hp, h1, h2⟩
    · rintro ⟨p, hp, h1, h2⟩
      exact ⟨p, (hmemiff p).mpr hp, h1, h2⟩
  · intro s
    constructor
    · rintro ⟨p, hp, h⟩
      exact ⟨p, (hmemiff p).mp hp, h⟩
    · rintro ⟨p, hp, h⟩
      exact ⟨p, (hmemiff p).mpr hp, h⟩

theorem calcFreeSlots_dup_invariant_witness :
    (((2 : Int), (4 : Int)) ∈ [((2 : Int), (4 : Int))] ++ ([] : List (Int × Int)) ∧
      (∀ p ∈ [((2 : Int), (4 : Int))] ++ ([] : List (Int × Int)), p.1 < p.2)) ∧
    calcFreeSlots 0 10 ([((2 : Int), (4 : Int))] ++ (2, 4) :: []) =
      calcFreeSlots 0 10 ([((2 : Int), (4 : Int))] ++ []) :=
  ⟨⟨by decide, by decide⟩,
    calcFreeSlots_dup_invariant 0 10 [((2 : Int), (4 : Int))] [] (2, 4)
      (by decide) (by decide)⟩

/-- C9 (amended): the day window of getAvailability is built from dayjs
startOf day and endOf day (calendar.ts:63-65); for the fixed-offset
timezone model, dayStart is the local midnight at or before the current
instant (local 00:00, i.e. dayStart plus the zone offset is divisible by
86400000), the instant lies inside the window, and the span is
dayEnd - dayStart = 86399999 ms, that is 24 hours minus one millisecond
(endOf day is local 23:59:59.999), not exactly 24 hours. -/
theorem dayWindow_spec (offsetMs t : Int) :
    startOfDay offsetMs t ≤ t ∧ t ≤ endOfDay offsetMs t ∧
    (startOfDay offsetMs t + offsetMs) % 86400000 = 0 ∧
    endOfDay offsetMs t - startOfDay offsetMs t = 86399999 := by
  simp only [startOfDay, endOfDay]
  omega

/-- C9 counterexample: for the Asia/Tokyo offset at instant 0 the computed
window spans 86399999 ms, so dayEnd - dayStart is not 24 hours
(86400000 ms). -/
theorem dayWindow_not_24h_cex :
    endOfDay 32400000 0 - startOfDay 32400000 0 = 86399999 ∧
    ¬ endOfDay 32400000 0 - startOfDay 32400000 0 = 86400000 := by
  refine ⟨by decide, by decide⟩

/-- C10: calcFreeSlots never mutates its busyIntervals argument: in the heap
model the returned heap still holds the original list at the argument
reference (sorting happens on the spread copy), and the computed result
agrees with the pure calcFreeSlots of the original contents. -/
theorem calcFreeSlots_no_mutation (dayStart dayEnd : Int)
    (h : List (List (Int × Int))) (r : Nat) (hr : r < h.length) :
    heapGet (calcFreeSlotsHeap dayStart dayEnd h r).2 r = heapGet h r ∧
    (calcFreeSlotsHeap dayStart dayEnd h r).1 =
      calcFreeSlots dayStart dayEnd (heapGet h r) := by
  have hne : h.length ≠ r := Nat.ne_of_gt hr
  have hget1 : heapGet (h ++ [heapGet h r]) h.length = heapGet h r := by
    simp [heapGet, List.getD_eq_getElem?_getD, List.getElem?_append_right]
  have hget2 : ∀ v : List (Int × Int),
      heapGet ((h ++ [heapGet h r]).set h.length v) r = heapGet h r := by
    intro v
    simp [heapGet, List.getD_eq_getElem?_getD, List.getElem?_set_ne hne,
      List.getElem?_append_left hr]
  have hget3 : ∀ v : List (Int × Int),
      heapGet ((h ++ [heapGet h r]).set h.length v) h.length = v := by
    intro v
    have hlen : h.length < (h ++ [heapGet h r]).length := by
      simp
    simp [heapGet, List.getD_eq_getElem?_getD, List.getElem?_set_self,
      hlen]
  constructor
  · exact hget2 _
  · show calcFreeSlotsAux dayEnd dayStart
        (heapGet ((h ++ [heapGet h r]).set h.length
          (sortByStart (heapGet (h ++ [heapGet h r]) h.length))) h.length) =
      calcFreeSlotsAux dayEnd dayStart (sortByStart (heapGet h r))
    rw [hget3, hget1]

theorem calcFreeSlots_no_mutation_witness :
    (0 < ([[((5 : Int), (6 : Int)), (1, 2)]] :
        List (List (Int × Int))).length) ∧
    (heapGet (calcFreeSlotsHeap 0 10
        [[((5 : Int), (6 : Int)), (1, 2)]] 0).2 0 =
      heapGet [[((5 : Int), (6 : Int)), (1, 2)]] 0 ∧
    (calcFreeSlotsHeap 0 10 [[((5 : Int), (6 : Int)), (1, 2)]] 0).1 =
      calcFreeSlots 0 10 (heapGet [[((5 : Int), (6 : Int)), (1, 2)]] 0)) :=
  ⟨by decide,
    calcFreeSlots_no_mutation 0 10 [[((5 : Int), (6 : Int)), (1, 2)]] 0
      (by decide)⟩

end GbpCalendar
